import Mathlib

/-!
Verification of the astro-i18n repository core: the translation-file
parser (regex pipeline of the bundled `loadTranslations`), the
configuration validators, the translation-file aggregator/loader, and the
runtime `Locale` accessor helpers.  JavaScript strings are modelled as
`List Char`; untrusted JavaScript values as the inductive `JSValue`;
fallible code returns `Except String`.
-/

namespace AstroI18n

/-- The set matched by the JavaScript regex class `\s`
(whitespace, per ECMA-262). -/
def isWsChar (c : Char) : Bool :=
  c = ' ' || c = '\t' || c = '\n' || c = '\r' ||
  c = '\x0b' || c = '\x0c' ||
  c.toNat = 0xa0 || c.toNat = 0x1680 ||
  (0x2000 ≤ c.toNat && c.toNat ≤ 0x200a) ||
  c.toNat = 0x2028 || c.toNat = 0x2029 ||
  c.toNat = 0x202f || c.toNat = 0x205f ||
  c.toNat = 0x3000 || c.toNat = 0xfeff

/-- The single-quote character (U+0027). -/
def squote : Char := Char.ofNat 39

/-- The characters matched by the regex class `["']`. -/
def isQuoteChar (c : Char) : Bool :=
  c = '"' || c = squote

/-- The characters matched by the regex class `[^"'\s:]`
(the key characters of the key/value regex). -/
def isKeyChar (c : Char) : Bool :=
  !(isQuoteChar c || isWsChar c || c = ':')

/-- Helper for the block-comment regex `/\*[\s\S]*?\*\//` (lazy body):
drops characters through the first `*/`, returning the remainder, or
`none` when no `*/` occurs (then the regex does not match). -/
def dropThroughClose : List Char → Option (List Char)
  | [] => none
  | [_] => none
  | a :: b :: rest =>
    if a = '*' ∧ b = '/' then some rest
    else dropThroughClose (b :: rest)

/-- Fuel-driven worker for `stripBlockComments`; the fuel is the length
of the scanned text, which always suffices (each step consumes at least
one character). -/
def stripBlockAux : Nat → List Char → List Char
  | 0, s => s
  | _ + 1, [] => []
  | fuel + 1, c :: rest =>
    match rest with
    | [] => c :: stripBlockAux fuel []
    | d :: r2 =>
      if c = '/' ∧ d = '*' then
        match dropThroughClose r2 with
        | some r3 => stripBlockAux fuel r3
        | none => c :: stripBlockAux fuel (d :: r2)
      else c :: stripBlockAux fuel (d :: r2)

/-- `content.replace(/\/\*[\s\S]*?\*\//g, "")`: global removal of lazy
block comments, scanning left to right. -/
def stripBlockComments (s : List Char) : List Char :=
  stripBlockAux s.length s

/-- Drops characters up to (but not including) the next newline; the `.`
of `/\/\/.*$/m` does not match `\n`, so the newline survives. -/
def dropToNewline : List Char → List Char
  | [] => []
  | '\n' :: rest => '\n' :: rest
  | _ :: rest => dropToNewline rest

/-- Fuel-driven worker for `stripLineComments`. -/
def stripLineAux : Nat → List Char → List Char
  | 0, s => s
  | _ + 1, [] => []
  | fuel + 1, c :: rest =>
    match rest with
    | [] => c :: stripLineAux fuel []
    | d :: r2 =>
      if c = '/' ∧ d = '/' then stripLineAux fuel (dropToNewline r2)
      else c :: stripLineAux fuel (d :: r2)

/-- `.replace(/\/\/.*$/gm, "")`: removes every line's content from its
first `//` to the end of that line. -/
def stripLineComments (s : List Char) : List Char :=
  stripLineAux s.length s

/-- Matching a literal prefix (used for the literals `export` and
`default` of the export-default regex). -/
def dropExact : List Char → List Char → Option (List Char)
  | [], s => some s
  | _, [] => none
  | p :: ps, c :: cs => if c = p then dropExact ps cs else none

/-- Tries `export\s+default\s*\{` at the start of `s`; on success returns
the suffix of `s` beginning at the opening brace.  The quantifiers are
greedy, which is deterministic here because `default` and `{` do not
start with whitespace. -/
def matchEDAt (s : List Char) : Option (List Char) :=
  match dropExact "export".data s with
  | none => none
  | some s1 =>
    match s1 with
    | [] => none
    | c :: s2 =>
      if isWsChar c then
        match dropExact "default".data (s2.dropWhile isWsChar) with
        | none => none
        | some s4 =>
          match s4.dropWhile isWsChar with
          | '{' :: s6 => some ('{' :: s6)
          | _ => none
      else none

/-- Leftmost occurrence of `export\s+default\s*\{`: scans positions left
to right, as the regex engine does. -/
def findED : List Char → Option (List Char)
  | [] => none
  | c :: tail =>
    match matchEDAt (c :: tail) with
    | some t => some t
    | none => findED tail

/-- Works on the reversed text: the tail after the group's closing brace
must match `\s*;?\s*$`, so (reading from the end) whitespace, an optional
semicolon, whitespace, then the closing brace.  Returns the reversed
prefix of the text ending at that brace.  At most one brace position can
satisfy this, so greedy `[\s\S]*` finds exactly it. -/
def closeTailRev (r : List Char) : Option (List Char) :=
  let r1 := r.dropWhile isWsChar
  let r2 := match r1 with
    | ';' :: t => t
    | _ => r1
  match r2.dropWhile isWsChar with
  | '}' :: t => some ('}' :: t)
  | _ => none

/-- `noComments.match(/export\s+default\s*(\{[\s\S]*\})\s*;?\s*$/)`:
returns the captured group `{...}` (braces included), or `none` when the
regex does not match. -/
def extractObject (s : List Char) : Option (List Char) :=
  match closeTailRev s.reverse with
  | none => none
  | some r3 =>
    match findED r3.reverse with
    | some t => if 2 ≤ t.length then some t else none
    | none => none

/-- One attempt of the key/value regex
`(["']?)([^"'\s:]+)\1\s*:\s*["']([^"']*)["']` anchored at the position
after the key (and its optional closing quote): expects `\s*:\s*`, an
opening quote, the value (`[^"']*`, greedy), and a closing quote.
Returns the key, the value, and the rest of the text after the match. -/
def afterKey (k : List Char) (r : List Char) :
    Option (List Char × List Char × List Char) :=
  match r.dropWhile isWsChar with
  | c :: r2 =>
    if c = ':' then
      match r2.dropWhile isWsChar with
      | q :: r4 =>
        if isQuoteChar q then
          let v := r4.takeWhile (fun c => !(isQuoteChar c))
          match r4.dropWhile (fun c => !(isQuoteChar c)) with
          | q2 :: r6 => if isQuoteChar q2 then some (k, v, r6) else none
          | [] => none
        else none
      | [] => none
    else none
  | [] => none

/-- The key/value regex tried at one position.  When the first character
is a quote, group 1 is that quote and the backreference `\1` must repeat
it after the key; otherwise group 1 is empty and the key is a maximal
nonempty run of key characters.  Backtracking cannot rescue a failure
here (shortening the greedy key run only exposes a character the
follow-up cannot accept), so the procedure is deterministic. -/
def tryKVAt (s : List Char) : Option (List Char × List Char × List Char) :=
  match s with
  | [] => none
  | c :: rest =>
    if isQuoteChar c then
      let k := rest.takeWhile isKeyChar
      match rest.dropWhile isKeyChar with
      | d :: r2 => if k ≠ [] ∧ d = c then afterKey k r2 else none
      | [] => none
    else if isKeyChar c then
      afterKey (c :: rest.takeWhile isKeyChar) (rest.dropWhile isKeyChar)
    else none

/-- Fuel-driven worker for `scanKV`; the fuel is the length of the
scanned text, which always suffices (a match consumes at least four
characters, a failure advances by one). -/
def scanKVAux : Nat → List Char → List (List Char × List Char)
  | 0, _ => []
  | _ + 1, [] => []
  | fuel + 1, c :: tail =>
    match tryKVAt (c :: tail) with
    | some (k, v, rest) => (k, v) :: scanKVAux fuel rest
    | none => scanKVAux fuel tail

/-- The `while ((keyValueMatch = keyValueRegex.exec(objectContent)) !== null)`
loop: repeatedly finds the leftmost key/value match and continues after
it, collecting matches in order. -/
def scanKV (s : List Char) : List (List Char × List Char) :=
  scanKVAux s.length s

/-- JavaScript object-property assignment `m[k] = v` on a plain object:
an existing key keeps its position and gets the new value, a new key is
appended. -/
def recordSet {α : Type} [DecidableEq α] {β : Type}
    (m : List (α × β)) (k : α) (v : β) : List (α × β) :=
  if m.any (fun p => p.1 = k) then
    m.map (fun p => if p.1 = k then (k, v) else p)
  else m ++ [(k, v)]

/-- JavaScript property read `m[k]` on a plain object. -/
def lookupRecord {α : Type} [DecidableEq α] {β : Type}
    (m : List (α × β)) (k : α) : Option β :=
  (m.find? (fun p => p.1 = k)).map (fun p => p.2)

/-- The parsing stage of the bundled `loadTranslations` applied to the
contents of one translation file: strip block comments, strip line
comments, locate the default-exported object literal, scan it for
key/value pairs, and accumulate them into `translationData` in order.
When no export-default structure is found the result is the empty
table.  This stage is a total function: it has no failure case. -/
def parseTranslationFile (content : List Char) : List (List Char × List Char) :=
  let noComments := stripLineComments (stripBlockComments content)
  match extractObject noComments with
  | none => []
  | some obj => (scanKV obj).foldl (fun m e => recordSet m e.1 e.2) []

/-- The sequence of `keyValueRegex.exec` matches the parsing stage
records, in order: empty when no export-default structure is found,
otherwise the key/value scan of the captured object literal.
`parseTranslationFile` folds exactly this list into `translationData`. -/
def parsedEntries (content : List Char) : List (List Char × List Char) :=
  match extractObject (stripLineComments (stripBlockComments content)) with
  | none => []
  | some obj => scanKV obj

/-- Whether the text contains a `//` or `/*` occurrence (a comment
start, the only triggers of the two comment-stripping rewrites). -/
def hasCommentStart : List Char → Bool
  | [] => false
  | [_] => false
  | a :: b :: rest =>
    (a = '/' && (b = '/' || b = '*')) || hasCommentStart (b :: rest)

/-- Serialization of a `TranslationTable` as a default-exported object
literal with quoted string keys and quoted string values (the round-trip
claim's serializer, built from the spec's words): one entry
`"key": "value",` per pair. -/
def serializeEntry (e : List Char × List Char) : List Char :=
  '"' :: e.1 ++ '"' :: ':' :: ' ' :: '"' :: e.2 ++ ['"', ',']

/-- `export default { ... };` around the serialized entries. -/
def serializeTable (t : List (List Char × List Char)) : List Char :=
  "export default ".data ++ '{' :: (t.map serializeEntry).flatten ++ ['}', ';']

/-! ### Untrusted JavaScript values and the configuration validators -/

/-- An untrusted JavaScript runtime value (numbers restricted to the
integers, which the claims never exercise). -/
inductive JSValue where
  | str : String → JSValue
  | num : Int → JSValue
  | bool : Bool → JSValue
  | null : JSValue
  | undefined : JSValue
  | arr : List JSValue → JSValue
  | obj : List (String × JSValue) → JSValue

/-- JavaScript `===` / SameValueZero on the values the validators
compare: primitives compare by value; two object or array literals
compare by reference, so two distinct occurrences are never equal
(modelled as `false` — the validated code paths only ever compare
primitives, where this is exact). -/
def jsPrimEq : JSValue → JSValue → Bool
  | .str a, .str b => a = b
  | .num a, .num b => a = b
  | .bool a, .bool b => a = b
  | .null, .null => true
  | .undefined, .undefined => true
  | _, _ => false

/-- JavaScript truthiness. -/
def truthy : JSValue → Bool
  | .str s => s ≠ ""
  | .num n => n ≠ 0
  | .bool b => b
  | .null => false
  | .undefined => false
  | .arr _ => true
  | .obj _ => true

/-- `typeof v === "boolean"`. -/
def isBoolV : JSValue → Bool
  | .bool _ => true
  | _ => false

/-- `typeof v === "string"`. -/
def isStringV : JSValue → Bool
  | .str _ => true
  | _ => false

/-- `typeof v === "string" && v.trim() !== ""` (`trim` removes
whitespace; the result is nonempty iff some character is not
whitespace). -/
def isNonBlankString : JSValue → Bool
  | .str s => s.data.any (fun c => !(isWsChar c))
  | _ => false

/-- Plain property read `v.name`: a `TypeError` on `null`/`undefined`,
the field (or `undefined`) on an object, `undefined` on other
primitives.  Object keys are unique at runtime, so the first match is
the value. -/
def getProp (v : JSValue) (field : String) : Except String JSValue :=
  match v with
  | .null => .error "TypeError: Cannot read properties of null"
  | .undefined => .error "TypeError: Cannot read properties of undefined"
  | .obj fields => .ok (((fields.find? (fun p => p.1 = field)).map (fun p => p.2)).getD .undefined)
  | _ => .ok .undefined

/-- Optional-chained property read `v?.name` (also used for plain reads
that the source guards behind a truthiness check, where the nullish case
is unreachable). -/
def getPropOpt (v : JSValue) (field : String) : JSValue :=
  match v with
  | .obj fields => ((fields.find? (fun p => p.1 = field)).map (fun p => p.2)).getD .undefined
  | _ => .undefined

mutual

/-- JavaScript `String(v)` / template-literal interpolation. -/
def jsToString : JSValue → String
  | .str s => s
  | .num n => toString n
  | .bool b => cond b "true" "false"
  | .null => "null"
  | .undefined => "undefined"
  | .arr l => jsListToString l
  | .obj _ => "[object Object]"

/-- `Array.prototype.toString`: elements joined with `,`, with
`null`/`undefined` elements rendered empty. -/
def jsListToString : List JSValue → String
  | [] => ""
  | x :: rest =>
    let s := match x with
      | .null => ""
      | .undefined => ""
      | v => jsToString v
    match rest with
    | [] => s
    | _ :: _ => s ++ "," ++ jsListToString rest

end

/-- `Array.prototype.join(sep)`: like `toString` but with an explicit
separator. -/
def jsJoin (sep : String) : List JSValue → String
  | [] => ""
  | x :: rest =>
    let s := match x with
      | .null => ""
      | .undefined => ""
      | v => jsToString v
    match rest with
    | [] => s
    | _ :: _ => s ++ sep ++ jsJoin sep rest

/-- The root configuration object handed to the integration, each field
an untrusted value (`dflt` embeds the source's `default` field). -/
structure Configuration where
  enabled : JSValue
  dflt : JSValue
  locales : JSValue
  translations : JSValue

def PREFIX : String := "[@mannisto/astro-i18n]"

/-- The body of `validate`'s per-locale loop (src/integration.ts): the
checks on `code`, `name`, `endonym` and `dir` of `locales[index]`, in
source order, each failing with the index-addressed message. -/
def validateLocale (index : Nat) (locale : JSValue) : Except String Unit :=
  match getProp locale "code" with
  | .error e => .error e
  | .ok code =>
    if !(isNonBlankString code) then
      .error (PREFIX ++ ": \"locales[" ++ toString index ++ "].code\" must be a non-empty string")
    else
      match getProp locale "name" with
      | .error e => .error e
      | .ok nameV =>
        if !(isNonBlankString nameV) then
          .error (PREFIX ++ ": \"locales[" ++ toString index ++ "].name\" must be a non-empty string")
        else
          match getProp locale "endonym" with
          | .error e => .error e
          | .ok endonym =>
            if !(isNonBlankString endonym) then
              .error (PREFIX ++ ": \"locales[" ++ toString index ++ "].endonym\" must be a non-empty string")
            else
              match getProp locale "dir" with
              | .error e => .error e
              | .ok dir =>
                if !(jsPrimEq dir (JSValue.str "ltr") || jsPrimEq dir (JSValue.str "rtl")) then
                  .error (PREFIX ++ ": \"locales[" ++ toString index ++ "].dir\" must be either \"ltr\" or \"rtl\"")
                else .ok ()

/-- `for (const [index, locale] of config.locales.entries())`, starting
at `index`. -/
def validateLocalesFrom (index : Nat) : List JSValue → Except String Unit
  | [] => .ok ()
  | l :: rest =>
    match validateLocale index l with
    | .error e => .error e
    | .ok _ => validateLocalesFrom (index + 1) rest

/-- `config.locales.some((l) => l.code === config.default)` (strict
equality on the untrusted values). -/
def someCodeEq (target : JSValue) : List JSValue → Except String Bool
  | [] => .ok false
  | l :: rest =>
    match getProp l "code" with
    | .error e => .error e
    | .ok c => if jsPrimEq c target then .ok true else someCodeEq target rest

/-- `validate` of src/integration.ts: `enabled` must be a strict
boolean; a falsy `enabled` short-circuits to success; then `default`,
the `locales` array shape, the per-locale fields in index order, the
membership of `default` among the locale codes, and finally the
`translations.path` requirement when `translations.enabled === true`. -/
def validate (config : Configuration) : Except String Unit :=
  if !(isBoolV config.enabled) then
    .error (PREFIX ++ ": \"enabled\" must be a boolean")
  else if !(truthy config.enabled) then
    .ok ()
  else if !(isNonBlankString config.dflt) then
    .error (PREFIX ++ ": \"default\" must be a non-empty string")
  else
    match config.locales with
    | .arr (l :: ls) =>
      match validateLocalesFrom 0 (l :: ls) with
      | .error e => .error e
      | .ok _ =>
        match someCodeEq config.dflt (l :: ls) with
        | .error e => .error e
        | .ok found =>
          if !found then
            .error (PREFIX ++ ": \"default\" must be one of the supported locale codes")
          else if truthy config.translations &&
              jsPrimEq (getPropOpt config.translations "enabled") (JSValue.bool true) &&
              !(isNonBlankString (getPropOpt config.translations "path")) then
            .error (PREFIX ++ ": \"translations.path\" must be a non-empty string when translations are enabled")
          else .ok ()
    | _ => .error (PREFIX ++ ": \"locales\" must be a non-empty array")

/-- One `Set.prototype.add`: SameValueZero membership, insertion order
preserved. -/
def jsSetInsert (acc : List JSValue) (x : JSValue) : List JSValue :=
  if acc.any (fun y => jsPrimEq y x) then acc else acc ++ [x]

/-- `new Set(l)` as its ordered element list. -/
def jsSetOf (l : List JSValue) : List JSValue :=
  l.foldl jsSetInsert []

/-- `new Set(l).size`. -/
def jsSetSize (l : List JSValue) : Nat :=
  (jsSetOf l).length

/-- `locales.map((locale) => locale.code)` (a nullish element makes the
property read throw). -/
def mapGetCodes : List JSValue → Except String (List JSValue)
  | [] => .ok []
  | l :: rest =>
    match getProp l "code" with
    | .error e => .error e
    | .ok c =>
      match mapGetCodes rest with
      | .error e => .error e
      | .ok cs => .ok (c :: cs)

/-- The per-locale loop of `Private.validate` (src/lib/locale.ts):
`code`, `endonym` and `dir` must be truthy strings (`dir` one of
`"ltr"`/`"rtl"`), in source order. -/
def validateEachLocale : List JSValue → Except String Unit
  | [] => .ok ()
  | l :: rest =>
    match getProp l "code" with
    | .error e => .error e
    | .ok code =>
      if !(truthy code && isStringV code) then
        .error "Invalid locale code. Each locale needs a `code` string (e.g., \x27en\x27, \x27fi\x27, \x27en-US\x27)."
      else
        match getProp l "endonym" with
        | .error e => .error e
        | .ok endonym =>
          if !(truthy endonym && isStringV endonym) then
            .error "Invalid locale endonym. Each locale needs an `endonym` string (e.g., \x27English\x27, \x27Suomi\x27)."
          else
            match getProp l "dir" with
            | .error e => .error e
            | .ok dir =>
              if !(truthy dir && (jsPrimEq dir (JSValue.str "ltr") || jsPrimEq dir (JSValue.str "rtl"))) then
                .error "Invalid locale direction. Use \x27ltr\x27 or \x27rtl\x27."
              else validateEachLocale rest

/-- `Private.validate` of src/lib/locale.ts: truthy config, truthy
`default`, non-empty `locales` array, `default` among the code list,
the per-locale field checks, and finally the duplicate-code check via
`new Set(codes).size !== codes.length` (the set size is the number of
distinct codes, i.e. the length of the deduplicated list). -/
def Private.validate (i18nConfig : JSValue) : Except String Unit :=
  if !(truthy i18nConfig) then
    .error "Config must export default with `i18n` settings: export default config(\x7b i18n: \x7b ... \x7d \x7d)."
  else
    match getProp i18nConfig "default" with
    | .error e => .error e
    | .ok dflt =>
      if !(truthy dflt) then
        .error "Default locale missing. Add `default` to i18n config."
      else
        match getProp i18nConfig "locales" with
        | .error e => .error e
        | .ok (.arr (l0 :: ls)) =>
          match mapGetCodes (l0 :: ls) with
          | .error e => .error e
          | .ok codes =>
            if !(codes.any (fun c => jsPrimEq c dflt)) then
              .error ("Default locale \"" ++ jsToString dflt ++ "\" not in supported locales: " ++
                jsJoin ", " codes ++ ".")
            else
              match validateEachLocale (l0 :: ls) with
              | .error e => .error e
              | .ok _ =>
                if jsSetSize codes ≠ codes.length then
                  .error "Duplicate locale codes found. Each code must be unique."
                else .ok ()
        | .ok _ => .error "No locales defined. Add at least one locale in `locales` array."

/-! ### The translation aggregator (bundled `loadTranslations`) -/

/-- `path.join(a, b, c)` for the plain relative segments used by the
loader (no normalization cases arise for them). -/
def pathJoin (parts : List String) : String :=
  String.intercalate "/" parts

/-- The body of the loader's per-locale loop (bundled
`loadTranslations`): resolve `cwd/dir/code.ts`, then `cwd/dir/code.js`
(first existing file wins; `fileSys` maps an existing path to its text),
parse the winner with the regex pipeline, or fail naming both attempted
filenames.  `fileSys p = some c` models `existsSync` true with content
`c`; reading an existing file is assumed not to fail, and the parsing
stage itself cannot, so the `catch` branch is unreachable. -/
def loadOneLocale (fileSys : String → Option (List Char)) (cwd dir : String)
    (locale : JSValue) :
    Except String (String × List (List Char × List Char)) :=
  match getProp locale "code" with
  | .error e => .error e
  | .ok codeV =>
    let code := jsToString codeV
    let tsPath := pathJoin [cwd, dir, code ++ ".ts"]
    let jsPath := pathJoin [cwd, dir, code ++ ".js"]
    match fileSys tsPath with
    | some content => .ok (code, parseTranslationFile content)
    | none =>
      match fileSys jsPath with
      | some content => .ok (code, parseTranslationFile content)
      | none =>
        .error ("Translation file not found for locale \"" ++ code ++
          "\" (tried " ++ code ++ ".ts and " ++ code ++ ".js)")

/-- `for (const locale of config2.locales) { ...; translations[locale.code] = translationData }`:
fail-fast left-to-right accumulation. -/
def loadLocalesFold (fileSys : String → Option (List Char)) (cwd dir : String)
    (acc : List (String × List (List Char × List Char))) :
    List JSValue → Except String (List (String × List (List Char × List Char)))
  | [] => .ok acc
  | l :: rest =>
    match loadOneLocale fileSys cwd dir l with
    | .error e => .error e
    | .ok r => loadLocalesFold fileSys cwd dir (recordSet acc r.1 r.2) rest

/-- The bundled `loadTranslations(config2)`: skips entirely (empty
result) unless `translations?.enabled` and `translations.path` are
truthy; otherwise drives the per-locale loader over `config2.locales`
(a non-array there would make `for...of` throw). -/
def loadTranslations (fileSys : String → Option (List Char)) (cwd : String)
    (config2 : Configuration) :
    Except String (List (String × List (List Char × List Char))) :=
  if truthy (getPropOpt config2.translations "enabled") &&
      truthy (getPropOpt config2.translations "path") then
    match config2.locales with
    | .arr ls =>
      loadLocalesFold fileSys cwd
        (jsToString (getPropOpt config2.translations "path")) [] ls
    | _ => .error "TypeError: config2.locales is not iterable"
  else .ok []

/-! ### The runtime `Locale` accessor -/

/-- The validated translations sub-configuration (`translations` field
of the runtime `I18nConfig`). -/
structure TransCfg where
  enabled : Bool
  path : String

/-- The validated runtime i18n configuration, as far as the accessor
functions read it (`dflt` embeds the source's `default` field). -/
structure I18nCfg where
  dflt : String
  translations : Option TransCfg

/-- `Locale.current` of the disk-loading variant:
`currentLocale || config().default`. -/
def localeCurrent (currentLocale : String) (cfg : I18nCfg) : String :=
  if currentLocale = "" then cfg.dflt else currentLocale

/-- `const code = locale || Locale.current`, with the current locale
already resolved (an absent or empty argument falls back to it). -/
def orCurrent (locale : Option String) (current : String) : String :=
  match locale with
  | some l => if l = "" then current else l
  | none => current

/-- `t.replace(pat, rep)` with a string pattern: JavaScript replaces
only the first occurrence. -/
def replaceFirstL (pat rep : List Char) : List Char → List Char
  | [] => if pat.isPrefixOf ([] : List Char) then rep else []
  | c :: rest =>
    if pat.isPrefixOf (c :: rest) then rep ++ (c :: rest).drop pat.length
    else c :: replaceFirstL pat rep rest

/-- The variable-interpolation loop shared by `Locale.t` and
`Locale.replace`: for each `(k, v)` replace the first occurrence of
`{k}` with `v`.  An absent `vars` argument behaves as the empty list. -/
def replaceVars (text : String) (vars : List (String × String)) : String :=
  vars.foldl
    (fun t kv =>
      String.mk (replaceFirstL ("\x7b" ++ kv.1 ++ "\x7d").data kv.2.data t.data))
    text

/-- `cache.translations[code]?.[key] ?? key`: the display text falls
back to the lookup key itself. -/
def textOrKey (cache2 : List (String × List (String × String)))
    (code key : String) : String :=
  (((lookupRecord cache2 code).map (fun tbl => lookupRecord tbl key)).getD none).getD key

/-- `Locale.t` of the disk-loading runtime variant, with the module
state passed explicitly: `fileSys` maps an existing translation file to
the table its `require(...).default` yields, `cacheTranslations` is the
process cache, `currentLocale` the stored preference.  Returns the
display text and the updated cache, or the missing-file error. -/
def localeT (fileSys : String → Option (List (String × String))) (cwd : String)
    (cfg : I18nCfg) (cacheTranslations : List (String × List (String × String)))
    (currentLocale : String) (key : String) (locale : Option String)
    (vars : List (String × String)) :
    Except String (String × List (String × List (String × String))) :=
  match cfg.translations with
  | none => .ok (key, cacheTranslations)
  | some tc =>
    if !tc.enabled then
      .ok (key, cacheTranslations)
    else
      let code := orCurrent locale (localeCurrent currentLocale cfg)
      match lookupRecord cacheTranslations code with
      | some _ =>
        .ok (replaceVars (textOrKey cacheTranslations code key) vars, cacheTranslations)
      | none =>
        let tsPath := pathJoin [cwd, tc.path, code ++ ".ts"]
        let jsPath := pathJoin [cwd, tc.path, code ++ ".js"]
        match fileSys tsPath with
        | some tbl =>
          let cache2 := recordSet cacheTranslations code tbl
          .ok (replaceVars (textOrKey cache2 code key) vars, cache2)
        | none =>
          match fileSys jsPath with
          | some tbl =>
            let cache2 := recordSet cacheTranslations code tbl
            .ok (replaceVars (textOrKey cache2 code key) vars, cache2)
          | none =>
            .error (PREFIX ++ ": Missing translations file for locale \"" ++ code ++
              "\" (tried " ++ code ++ ".ts and " ++ code ++ ".js)")

/-- `Locale.translations` of the injected-globals runtime variant:
empty table unless translations are enabled; otherwise the injected
per-locale table when present (`injected = none` models an undefined
`__ASTRO_I18N_TRANSLATIONS__` global), else the empty table.  `current`
is the already-resolved `Locale.current`. -/
def localeTranslations (cfg : I18nCfg)
    (injected : Option (List (String × List (String × String))))
    (current : String) (locale : Option String) : List (String × String) :=
  let code := orCurrent locale current
  match cfg.translations with
  | none => []
  | some tc =>
    if !tc.enabled then []
    else
      match injected with
      | none => []
      | some m =>
        match lookupRecord m code with
        | some tbl => tbl
        | none => []

/-- `Locale.url` of the injected-globals runtime variant:
`/${code}${pathname}` after prepending a leading slash to the pathname
when it lacks one.  `current` is the already-resolved `Locale.current`. -/
def localeUrl (current : String) (pathname : String) (locale : Option String) : String :=
  let code := orCurrent locale current
  let p := if pathname.startsWith "/" then pathname else "/" ++ pathname
  "/" ++ code ++ p

/-- Modelled from the claim's words (for the refinement statement about
`Locale.url`): the input pathname with a leading `/` prepended if it
lacked one. -/
def normalizePathname (pathname : String) : String :=
  if pathname.startsWith "/" then pathname else "/" ++ pathname

/-! ## Theorems -/

/-- C5: for every configuration value whose `enabled` field is strictly
the boolean `false`, `validate` returns successfully without examining
any other field — `default`, `locales` and `translations` are
universally quantified and may be arbitrarily malformed. -/
theorem validate_disabled_succeeds (d l t : JSValue) :
    validate { enabled := JSValue.bool false, dflt := d, locales := l, translations := t } =
      .ok () := rfl

/-- C6: for an enabled configuration that passes the `enabled` and
`default` checks, whose locale list has an invalid `code` at index 0
and an invalid `dir` at index 1, `validate` reports exactly the
`locales[0].code` violation: the first one in its fixed top-to-bottom,
left-to-right check order. -/
theorem validate_reports_first_violation (c : Configuration)
    (l0 l1 : JSValue) (ls : List JSValue) (c0 d1 : JSValue)
    (hEn : c.enabled = JSValue.bool true)
    (hDef : isNonBlankString c.dflt = true)
    (hLoc : c.locales = .arr (l0 :: l1 :: ls))
    (hC0 : getProp l0 "code" = .ok c0)
    (hC0bad : isNonBlankString c0 = false)
    (_hD1 : getProp l1 "dir" = .ok d1)
    (_hD1bad : jsPrimEq d1 (JSValue.str "ltr") = false ∧
      jsPrimEq d1 (JSValue.str "rtl") = false) :
    validate c =
      .error "[@mannisto/astro-i18n]: \"locales[0].code\" must be a non-empty string" := by
  unfold validate
  rw [hEn, hLoc]
  simp only [isBoolV, truthy, Bool.not_true, Bool.false_eq_true, if_false, ite_false]
  unfold validateLocalesFrom validateLocale
  rw [hC0]
  simp [hC0bad, PREFIX, hDef]
  rfl

/-- C6 witness: a concrete enabled configuration with a numeric
`locales[0].code` and `locales[1].dir = "up"` is rejected with the
`locales[0].code` message. -/
theorem validate_reports_first_violation_witness :
    validate
      { enabled := JSValue.bool true, dflt := JSValue.str "en",
        locales := JSValue.arr
          [JSValue.obj [("code", JSValue.num 5)],
           JSValue.obj [("code", JSValue.str "fr"), ("dir", JSValue.str "up")]],
        translations := JSValue.undefined } =
      .error "[@mannisto/astro-i18n]: \"locales[0].code\" must be a non-empty string" :=
  validate_reports_first_violation _ _ _ _ (JSValue.num 5) (JSValue.str "up")
    rfl (by decide) rfl rfl (by decide) rfl (by decide)

/-- C2: the parsing stage of the translation loader is a total function
(it returns a table, with no failure case in its type), and whenever the
comment-stripped text contains no recognizable `export default { ... }`
structure it returns the empty table rather than failing. -/
theorem parse_no_structure_empty (content : List Char)
    (h : extractObject (stripLineComments (stripBlockComments content)) = none) :
    parseTranslationFile content = [] := by
  unfold parseTranslationFile
  simp [h]

/-- C2 witness: a file whose text is `hello world` has no
export-default structure and parses to the empty table. -/
theorem parse_no_structure_empty_witness :
    extractObject (stripLineComments (stripBlockComments "hello world".data)) = none ∧
    parseTranslationFile "hello world".data = [] :=
  ⟨by decide, parse_no_structure_empty _ (by decide)⟩

/-- Membership through SameValueZero: for a string target, `Set`-style
membership coincides with list membership. -/
theorem any_jsPrimEq_str (acc : List JSValue) (s : String) :
    acc.any (fun y => jsPrimEq y (JSValue.str s)) = true ↔ JSValue.str s ∈ acc := by
  induction acc with
  | nil => simp
  | cons x r ih =>
    simp only [List.any_cons, Bool.or_eq_true, List.mem_cons, ih]
    constructor
    · rintro (h | h)
      · left
        cases x <;> simp_all [jsPrimEq]
      · right; exact h
    · rintro (h | h)
      · left; rw [← h]; simp [jsPrimEq]
      · right; exact h

/-- Inserting into a JavaScript `Set` grows it by at most one. -/
theorem jsSetInsert_length_le (acc : List JSValue) (x : JSValue) :
    (jsSetInsert acc x).length ≤ acc.length + 1 := by
  unfold jsSetInsert
  split <;> simp

/-- Building a `Set` from a list never yields more elements than were
inserted. -/
theorem foldl_jsSetInsert_length (l : List JSValue) :
    ∀ acc : List JSValue, (l.foldl jsSetInsert acc).length ≤ acc.length + l.length := by
  induction l with
  | nil => intro acc; simp
  | cons x r ih =>
    intro acc
    simp only [List.foldl_cons]
    calc (r.foldl jsSetInsert (jsSetInsert acc x)).length
        ≤ (jsSetInsert acc x).length + r.length := ih _
      _ ≤ (acc.length + 1) + r.length := by
          have := jsSetInsert_length_le acc x
          omega
      _ = acc.length + (x :: r).length := by simp; omega

/-- Insertion preserves the elements already present. -/
theorem mem_jsSetInsert (acc : List JSValue) (x y : JSValue) (h : y ∈ acc) :
    y ∈ jsSetInsert acc x := by
  unfold jsSetInsert
  split
  · exact h
  · exact List.mem_append_left _ h

/-- After inserting a string it is present in the `Set`. -/
theorem mem_jsSetInsert_self_str (acc : List JSValue) (s : String) :
    JSValue.str s ∈ jsSetInsert acc (JSValue.str s) := by
  unfold jsSetInsert
  split
  · rename_i h
    exact (any_jsPrimEq_str acc s).mp h
  · exact List.mem_append_right _ (List.mem_singleton.mpr rfl)

/-- Inserting a list one of whose string elements is already present
yields strictly fewer elements than inserted. -/
theorem foldl_jsSetInsert_dup_lt (l : List JSValue) :
    ∀ acc : List JSValue, (∃ s : String, JSValue.str s ∈ acc ∧ JSValue.str s ∈ l) →
    (l.foldl jsSetInsert acc).length < acc.length + l.length := by
  induction l with
  | nil => rintro acc ⟨s, _, h⟩; simp at h
  | cons x r ih =>
    rintro acc ⟨s, hacc, hmem⟩
    simp only [List.foldl_cons]
    rcases List.mem_cons.mp hmem with h | h
    · -- x = .str s already present: insert is a no-op
      have hins : jsSetInsert acc x = acc := by
        unfold jsSetInsert
        rw [if_pos]
        rw [← h]
        exact (any_jsPrimEq_str acc s).mpr hacc
      rw [hins]
      calc (r.foldl jsSetInsert acc).length ≤ acc.length + r.length :=
            foldl_jsSetInsert_length r acc
        _ < acc.length + (x :: r).length := by simp
    · have hlt := ih (jsSetInsert acc x) ⟨s, mem_jsSetInsert _ _ _ hacc, h⟩
      have hle : (jsSetInsert acc x).length ≤ acc.length + 1 :=
        jsSetInsert_length_le acc x
      calc (r.foldl jsSetInsert (jsSetInsert acc x)).length
          < (jsSetInsert acc x).length + r.length := hlt
        _ ≤ (acc.length + 1) + r.length := by omega
        _ = acc.length + (x :: r).length := by simp; omega

/-- A list with a duplicate splits around a repeated element. -/
theorem not_nodup_split {α : Type} (l : List α) (h : ¬ l.Nodup) :
    ∃ l1 x l2, l = l1 ++ x :: l2 ∧ x ∈ l2 := by
  induction l with
  | nil => exact absurd List.nodup_nil h
  | cons a r ih =>
    by_cases ha : a ∈ r
    · exact ⟨[], a, r, rfl, ha⟩
    · have hr : ¬ r.Nodup := by
        intro hn
        exact h (List.nodup_cons.mpr ⟨ha, hn⟩)
      obtain ⟨l1, x, l2, heq, hx⟩ := ih hr
      exact ⟨a :: l1, x, l2, by rw [heq]; rfl, hx⟩

/-- The `new Set(codes).size !== codes.length` duplicate test fires for
a duplicated string code list: the set is strictly smaller. -/
theorem jsSetSize_lt_of_dup (codes : List String) (h : ¬ codes.Nodup) :
    jsSetSize (codes.map JSValue.str) < codes.length := by
  obtain ⟨l1, x, l2, heq, hx⟩ := not_nodup_split codes h
  subst heq
  unfold jsSetSize jsSetOf
  rw [List.map_append, List.foldl_append, List.map_cons, List.foldl_cons]
  have hmem1 : JSValue.str x ∈ jsSetInsert ((l1.map JSValue.str).foldl jsSetInsert []) (JSValue.str x) :=
    mem_jsSetInsert_self_str _ _
  have hlt := foldl_jsSetInsert_dup_lt (l2.map JSValue.str)
    (jsSetInsert ((l1.map JSValue.str).foldl jsSetInsert []) (JSValue.str x))
    ⟨x, hmem1, List.mem_map_of_mem _ hx⟩
  have hle1 : ((l1.map JSValue.str).foldl jsSetInsert []).length ≤ l1.length := by
    have := foldl_jsSetInsert_length (l1.map JSValue.str) []
    simpa using this
  have hle2 : (jsSetInsert ((l1.map JSValue.str).foldl jsSetInsert []) (JSValue.str x)).length ≤ l1.length + 1 := by
    have := jsSetInsert_length_le ((l1.map JSValue.str).foldl jsSetInsert []) (JSValue.str x)
    omega
  simp only [List.length_map] at hlt
  simp [List.length_append]
  omega

/-- C7: for a truthy configuration whose `default` is truthy and among
the code list, whose locale list is non-empty and passes every
individual per-locale field check (`validateEachLocale` succeeds, the
check that runs before the uniqueness count), but whose code list
contains two identical codes, `Private.validate` fails with the
duplicate-locale-codes error. -/
theorem privateValidate_duplicate_codes (cfg dflt : JSValue) (ls : List JSValue) (codes : List String)
    (h0 : truthy cfg = true)
    (h1 : getProp cfg "default" = .ok dflt) (h2 : truthy dflt = true)
    (h3 : getProp cfg "locales" = .ok (.arr ls)) (hne : ls ≠ [])
    (h5 : mapGetCodes ls = .ok (codes.map JSValue.str))
    (h7 : (codes.map JSValue.str).any (fun c => jsPrimEq c dflt) = true)
    (h8 : validateEachLocale ls = .ok ())
    (h9 : ¬ codes.Nodup) :
    Private.validate cfg = .error "Duplicate locale codes found. Each code must be unique." := by
  rcases ls with _ | ⟨l0, ls'⟩
  · exact absurd rfl hne
  · unfold Private.validate
    rw [h1, h3]
    simp only [h0, h2, Bool.not_true, Bool.false_eq_true, if_false, ite_false]
    rw [h5]
    simp only [h7, Bool.not_true, Bool.false_eq_true, if_false, ite_false]
    rw [h8]
    have hlt := jsSetSize_lt_of_dup codes h9
    rw [if_pos]
    · simp only [List.length_map]
      omega

/-- C7 witness: two locales both with code `en` (all individual fields
valid) are rejected as duplicates. -/
theorem privateValidate_duplicate_codes_witness : Private.validate
    (JSValue.obj [("default", JSValue.str "en"),
      ("locales", JSValue.arr
        [JSValue.obj [("code", JSValue.str "en"), ("endonym", JSValue.str "English"), ("dir", JSValue.str "ltr")],
         JSValue.obj [("code", JSValue.str "en"), ("endonym", JSValue.str "English"), ("dir", JSValue.str "ltr")]])]) =
    .error "Duplicate locale codes found. Each code must be unique." :=
  privateValidate_duplicate_codes _ (JSValue.str "en") _ ["en", "en"] rfl rfl rfl rfl (by simp) rfl (by decide) rfl (by decide)

/-- C8: for a configuration with translations enabled and a nonempty
path, the loader resolves each locale code by trying `D/code.ts` first
and `D/code.js` second — the first existing file wins, even when both
exist — and when neither exists the per-locale load and the whole
`loadTranslations` run fail with the error naming both attempted
filenames `code.ts` and `code.js`; the failure is independent of the
remaining locales (`rest` is universally quantified and never
consulted), so subsequent locales are not attempted. -/
theorem loader_resolution_order (fileSys : String → Option (List Char)) (cwd p : String)
    (c : Configuration) (l0 : JSValue) (rest : List JSValue) (codeV : JSValue)
    (hT : truthy (getPropOpt c.translations "enabled") = true)
    (hP : getPropOpt c.translations "path" = JSValue.str p) (hPne : p ≠ "")
    (hL : c.locales = .arr (l0 :: rest))
    (hCode : getProp l0 "code" = .ok codeV) :
    (∀ content, fileSys (pathJoin [cwd, p, jsToString codeV ++ ".ts"]) = some content →
       loadOneLocale fileSys cwd p l0 = .ok (jsToString codeV, parseTranslationFile content)) ∧
    (∀ content, fileSys (pathJoin [cwd, p, jsToString codeV ++ ".ts"]) = none →
       fileSys (pathJoin [cwd, p, jsToString codeV ++ ".js"]) = some content →
       loadOneLocale fileSys cwd p l0 = .ok (jsToString codeV, parseTranslationFile content)) ∧
    (fileSys (pathJoin [cwd, p, jsToString codeV ++ ".ts"]) = none →
     fileSys (pathJoin [cwd, p, jsToString codeV ++ ".js"]) = none →
       loadOneLocale fileSys cwd p l0 =
         .error ("Translation file not found for locale \"" ++ jsToString codeV ++
           "\" (tried " ++ jsToString codeV ++ ".ts and " ++ jsToString codeV ++ ".js)") ∧
       loadTranslations fileSys cwd c =
         .error ("Translation file not found for locale \"" ++ jsToString codeV ++
           "\" (tried " ++ jsToString codeV ++ ".ts and " ++ jsToString codeV ++ ".js)")) := by
  have hone : ∀ r, loadOneLocale fileSys cwd p l0 = r ↔
      ((match fileSys (pathJoin [cwd, p, jsToString codeV ++ ".ts"]) with
        | some content => Except.ok (jsToString codeV, parseTranslationFile content)
        | none =>
          match fileSys (pathJoin [cwd, p, jsToString codeV ++ ".js"]) with
          | some content => Except.ok (jsToString codeV, parseTranslationFile content)
          | none =>
            Except.error ("Translation file not found for locale \"" ++ jsToString codeV ++
              "\" (tried " ++ jsToString codeV ++ ".ts and " ++ jsToString codeV ++ ".js)")) = r) := by
    intro r
    unfold loadOneLocale
    rw [hCode]
  refine ⟨?_, ?_, ?_⟩
  · intro content hts
    rw [hone, hts]
  · intro content hts hjs
    rw [hone, hts, hjs]
  · intro hts hjs
    have h1 : loadOneLocale fileSys cwd p l0 =
        .error ("Translation file not found for locale \"" ++ jsToString codeV ++
          "\" (tried " ++ jsToString codeV ++ ".ts and " ++ jsToString codeV ++ ".js)") := by
      rw [hone, hts, hjs]
    refine ⟨h1, ?_⟩
    unfold loadTranslations
    rw [hL, hT, hP]
    have hjp : jsToString (JSValue.str p) = p := rfl
    simp only [truthy, hjp, hPne, Bool.true_and]
    rw [if_pos (by simp [hPne])]
    unfold loadLocalesFold
    rw [h1]

/-- C8 witness: with no files on disk at all, loading locale `en` from
directory `tr` fails naming `en.ts` and `en.js`, regardless of a second
declared locale. -/
theorem loader_resolution_order_witness :
    loadTranslations (fun _ => none) "proj"
      { enabled := JSValue.bool true, dflt := JSValue.str "en",
        locales := JSValue.arr
          [JSValue.obj [("code", JSValue.str "en")],
           JSValue.obj [("code", JSValue.str "fi")]],
        translations := JSValue.obj
          [("enabled", JSValue.bool true), ("path", JSValue.str "tr")] } =
      .error "Translation file not found for locale \"en\" (tried en.ts and en.js)" := by
  exact ((loader_resolution_order (fun _ => none) "proj" "tr"
    { enabled := JSValue.bool true, dflt := JSValue.str "en",
      locales := JSValue.arr
        [JSValue.obj [("code", JSValue.str "en")],
         JSValue.obj [("code", JSValue.str "fi")]],
      translations := JSValue.obj
        [("enabled", JSValue.bool true), ("path", JSValue.str "tr")] }
    (JSValue.obj [("code", JSValue.str "en")])
    [JSValue.obj [("code", JSValue.str "fi")]]
    (JSValue.str "en")
    rfl rfl (by decide) rfl rfl).2.2 rfl rfl).2

/-- C9 counterexample: the disk-loading `Locale.t` is a runtime lookup
that, for a locale absent from the loaded (cached) translation set whose
translation file does not exist, throws the missing-file error instead
of returning the lookup key — refuting the claim that a lookup of an
absent locale never throws. -/
theorem localeT_absent_locale_throws : localeT (fun _ => none) "cwd"
    { dflt := "en", translations := some { enabled := true, path := "tr" } }
    [] "" "hello" (some "xx") [] =
    .error "[@mannisto/astro-i18n]: Missing translations file for locale \"xx\" (tried xx.ts and xx.js)" := by
  rfl

/-- C9 amended: a lookup for a key absent from the requested locale's
cached table resolves to the lookup key itself and does not throw
(`Locale.t`), and requesting the translations of a locale absent from
the injected set yields the empty table and does not throw
(`Locale.translations`); only `Locale.t` on a locale that is neither
cached nor backed by a translation file throws. -/
theorem lookup_fallback_behavior :
    (∀ (fileSys : String → Option (List (String × String))) (cwd : String)
       (cfg : I18nCfg) (cache : List (String × List (String × String)))
       (cur key code : String) (tbl : List (String × String)),
       code ≠ "" →
       lookupRecord cache code = some tbl →
       lookupRecord tbl key = none →
       localeT fileSys cwd cfg cache cur key (some code) [] = .ok (key, cache)) ∧
    (∀ (cfg : I18nCfg) (injected : Option (List (String × List (String × String))))
       (current code : String),
       code ≠ "" →
       (∀ m, injected = some m → lookupRecord m code = none) →
       localeTranslations cfg injected current (some code) = []) := by
  constructor
  · intro fileSys cwd cfg cache cur key code tbl hc hcache htbl
    rcases cfg with ⟨dflt, _ | tc⟩
    · rfl
    · unfold localeT
      rcases htc : tc.enabled
      · simp [htc]
      · simp only [htc, Bool.not_true, Bool.false_eq_true, if_false, ite_false]
        have hoc : orCurrent (some code) (localeCurrent cur ⟨dflt, some tc⟩) = code := by
          unfold orCurrent; simp [hc]
        rw [hoc, hcache]
        have : textOrKey cache code key = key := by
          unfold textOrKey
          rw [hcache]
          simp [htbl]
        rw [this]
        rfl
  · intro cfg injected current code hc hmi
    rcases cfg with ⟨dflt, _ | tc⟩
    · rfl
    · unfold localeTranslations
      have hoc : orCurrent (some code) current = code := by
        unfold orCurrent; simp [hc]
      rcases htc : tc.enabled
      · simp [htc]
      · simp only [htc, Bool.not_true, Bool.false_eq_true, if_false, ite_false]
        rcases injected with _ | m
        · simp
        · simp only []
          rw [hoc, hmi m rfl]

/-- C9 amended witness: looking up the key `hello`, absent from the
cached table of locale `xx`, returns `hello`; requesting translations
for `xx` when the injected set lacks it returns the empty table. -/
theorem lookup_fallback_behavior_witness :
    localeT (fun _ => none) ""
      { dflt := "en", translations := some { enabled := true, path := "tr" } }
      [("xx", [("a", "b")])] "" "hello" (some "xx") [] =
      .ok ("hello", [("xx", [("a", "b")])]) ∧
    localeTranslations
      { dflt := "en", translations := some { enabled := true, path := "tr" } }
      (some []) "en" (some "xx") = [] :=
  ⟨lookup_fallback_behavior.1 (fun _ => none) ""
      { dflt := "en", translations := some { enabled := true, path := "tr" } }
      [("xx", [("a", "b")])] "" "hello" "xx" [("a", "b")] (by decide) rfl rfl,
   lookup_fallback_behavior.2
      { dflt := "en", translations := some { enabled := true, path := "tr" } }
      (some []) "en" "xx" (by decide)
      (fun m h => by injection h with h2; rw [← h2]; rfl)⟩

/-- C10: for every pathname and every nonempty locale code, `Locale.url`
returns `/` ++ code ++ the normalized pathname (the pathname with a
leading slash prepended if it lacked one); in particular the result
always begins with a slash followed by the locale code, whatever the
configured current/default locale `current` is — the function never
special-cases the default locale. -/
theorem localeUrl_prefixes_code (current pathname code : String) (h : code ≠ "") :
    localeUrl current pathname (some code) = "/" ++ code ++ normalizePathname pathname ∧
    ∃ rest, localeUrl current pathname (some code) = "/" ++ code ++ rest := by
  unfold localeUrl orCurrent normalizePathname
  simp [h]

/-- C10 witness: `url("about", "fi")` with current locale `en` yields
`/fi/about`. -/
theorem localeUrl_prefixes_code_witness :
    localeUrl "en" "about" (some "fi") = "/" ++ "fi" ++ normalizePathname "about" ∧
    ∃ rest, localeUrl "en" "about" (some "fi") = "/" ++ "fi" ++ rest :=
  localeUrl_prefixes_code "en" "about" "fi" (by decide)

/-- A run satisfying the predicate followed by a stopper is what `takeWhile` returns. -/
theorem takeWhile_append_stop {α : Type} {p : α → Bool} (a : List α) (h0 : α) (r : List α)
    (ha : ∀ x ∈ a, p x = true) (hh : p h0 = false) :
    (a ++ h0 :: r).takeWhile p = a := by
  induction a with
  | nil => simp [List.takeWhile_cons, hh]
  | cons x t ih =>
    have hx : p x = true := ha x (List.mem_cons_self x t)
    simp only [List.cons_append, List.takeWhile_cons, hx, if_true, ite_true]
    rw [ih (fun y hy => ha y (List.mem_cons_of_mem x hy))]

/-- A run satisfying the predicate followed by a stopper: `dropWhile` returns the stopper onward. -/
theorem dropWhile_append_stop {α : Type} {p : α → Bool} (a : List α) (h0 : α) (r : List α)
    (ha : ∀ x ∈ a, p x = true) (hh : p h0 = false) :
    (a ++ h0 :: r).dropWhile p = h0 :: r := by
  induction a with
  | nil => simp [List.dropWhile_cons, hh]
  | cons x t ih =>
    have hx : p x = true := ha x (List.mem_cons_self x t)
    simp only [List.cons_append, List.dropWhile_cons, hx, if_true, ite_true]
    exact ih (fun y hy => ha y (List.mem_cons_of_mem x hy))

/-- Characterization of a successful `afterKey`: the input decomposes as
whitespace, the colon, whitespace, a quote, the (quote-free) value, and
a closing quote, followed by the returned rest. -/
theorem afterKey_eq_some (k r : List Char) (k' v rest : List Char)
    (h : afterKey k r = some (k', v, rest)) :
    k' = k ∧ ∃ w1 w2 q1 q2, r = w1 ++ ':' :: w2 ++ q1 :: v ++ q2 :: rest ∧
      (∀ c ∈ w1, isWsChar c = true) ∧ (∀ c ∈ w2, isWsChar c = true) ∧
      isQuoteChar q1 = true ∧ isQuoteChar q2 = true ∧
      (∀ c ∈ v, isQuoteChar c = false) := by
  unfold afterKey at h
  rcases hd1 : r.dropWhile isWsChar with _ | ⟨c1, r2⟩
  · rw [hd1] at h
    exact Option.noConfusion h
  rw [hd1] at h
  dsimp only at h
  by_cases hc1 : c1 = ':'
  case neg =>
    rw [if_neg hc1] at h
    exact Option.noConfusion h
  rw [if_pos hc1] at h
  subst hc1
  rcases hd2 : r2.dropWhile isWsChar with _ | ⟨q, r4⟩
  · rw [hd2] at h
    exact Option.noConfusion h
  rw [hd2] at h
  dsimp only at h
  by_cases hq : isQuoteChar q = true
  case neg =>
    rw [if_neg (by simpa using hq)] at h
    exact Option.noConfusion h
  rw [if_pos (by simpa using hq)] at h
  rcases hd3 : r4.dropWhile (fun c => !(isQuoteChar c)) with _ | ⟨q2, r6⟩
  · rw [hd3] at h
    exact Option.noConfusion h
  rw [hd3] at h
  dsimp only at h
  by_cases hq2 : isQuoteChar q2 = true
  case neg =>
    rw [if_neg (by simpa using hq2)] at h
    exact Option.noConfusion h
  rw [if_pos (by simpa using hq2)] at h
  injection h with h
  injection h with hk h
  injection h with hv hrest
  have e1 : r = r.takeWhile isWsChar ++ (':' :: r2) := by
    rw [← hd1, List.takeWhile_append_dropWhile]
  have e2 : r2 = r2.takeWhile isWsChar ++ (q :: r4) := by
    rw [← hd2, List.takeWhile_append_dropWhile]
  have e3 : r4 = v ++ (q2 :: rest) := by
    rw [← hv, ← hrest, ← hd3, List.takeWhile_append_dropWhile]
  refine ⟨hk.symm, r.takeWhile isWsChar, r2.takeWhile isWsChar, q, q2, ?_, ?_, ?_, hq, hq2, ?_⟩
  · calc r = r.takeWhile isWsChar ++ (':' :: r2) := e1
      _ = r.takeWhile isWsChar ++ (':' :: (r2.takeWhile isWsChar ++ (q :: r4))) := by rw [← e2]
      _ = r.takeWhile isWsChar ++ ':' :: r2.takeWhile isWsChar ++ q :: v ++ q2 :: rest := by
          rw [e3]; simp
  · intro c hc; exact List.mem_takeWhile_imp hc
  · intro c hc; exact List.mem_takeWhile_imp hc
  · rw [← hv]
    intro c hc
    have := List.mem_takeWhile_imp hc
    simpa using this

theorem isQuoteChar_cases (c : Char) (h : isQuoteChar c = true) : c = '"' ∨ c = squote := by
  unfold isQuoteChar at h
  rcases Bool.or_eq_true_iff.mp h with h | h
  · left; exact of_decide_eq_true h
  · right; exact of_decide_eq_true h

/-- Characterization of a successful key/value match: the scanned text
decomposes as the (possibly empty, then repeated) group-1 quote, a
nonempty run of key characters, `\s*:\s*`, and a quoted value, followed
by the returned rest. -/
theorem tryKVAt_eq_some (s k v rest : List Char)
    (h : tryKVAt s = some (k, v, rest)) :
    ∃ g w1 w2 q1 q2, s = g ++ k ++ g ++ w1 ++ ':' :: w2 ++ q1 :: v ++ q2 :: rest ∧
      (g = [] ∨ g = ['"'] ∨ g = [squote]) ∧
      k ≠ [] ∧ (∀ c ∈ k, isKeyChar c = true) ∧
      (∀ c ∈ w1, isWsChar c = true) ∧ (∀ c ∈ w2, isWsChar c = true) ∧
      isQuoteChar q1 = true ∧ isQuoteChar q2 = true ∧
      (∀ c ∈ v, isQuoteChar c = false) := by
  unfold tryKVAt at h
  rcases s with _ | ⟨c, rest0⟩
  · exact Option.noConfusion h
  have hkeymem : ∀ x ∈ rest0.takeWhile isKeyChar, isKeyChar x = true :=
    fun x hx => List.mem_takeWhile_imp hx
  by_cases hqc : isQuoteChar c = true
  · simp only [hqc, if_true, ite_true] at h
    rcases hdd : rest0.dropWhile isKeyChar with _ | ⟨d, r2⟩
    · rw [hdd] at h
      exact Option.noConfusion h
    · rw [hdd] at h
      dsimp only at h
      by_cases hcond : rest0.takeWhile isKeyChar ≠ [] ∧ d = c
      · rw [if_pos hcond] at h
        obtain ⟨hkne, hdc⟩ := hcond
        obtain ⟨hk', w1, w2, q1, q2, hr, hw1, hw2, hq1, hq2, hv⟩ := afterKey_eq_some _ _ _ _ _ h
        have e0 : rest0 = rest0.takeWhile isKeyChar ++ (d :: r2) := by
          rw [← hdd, List.takeWhile_append_dropWhile]
        refine ⟨[c], w1, w2, q1, q2, ?_, ?_, ?_, ?_, hw1, hw2, hq1, hq2, hv⟩
        · rw [hk']
          subst hdc
          conv_lhs => rw [e0, hr]
          simp
        · rcases isQuoteChar_cases c hqc with h | h
          · right; left; rw [h]
          · right; right; rw [h]
        · rw [hk']; exact hkne
        · rw [hk']; exact hkeymem
      · rw [if_neg hcond] at h
        exact Option.noConfusion h
  · have hqc2 : isQuoteChar c = false := by
      rcases hb : isQuoteChar c
      · rfl
      · exact absurd hb hqc
    simp only [hqc2, Bool.false_eq_true, if_false, ite_false] at h
    by_cases hkc : isKeyChar c = true
    · simp only [hkc, if_true, ite_true] at h
      obtain ⟨hk', w1, w2, q1, q2, hr, hw1, hw2, hq1, hq2, hv⟩ := afterKey_eq_some _ _ _ _ _ h
      have e0 : rest0 = rest0.takeWhile isKeyChar ++ rest0.dropWhile isKeyChar := by
        rw [List.takeWhile_append_dropWhile]
      refine ⟨[], w1, w2, q1, q2, ?_, Or.inl rfl, ?_, ?_, hw1, hw2, hq1, hq2, hv⟩
      · rw [hk']
        conv_lhs => rw [e0, hr]
        simp
      · rw [hk']; exact List.cons_ne_nil c _
      · rw [hk']
        intro x hx
        rcases List.mem_cons.mp hx with hx | hx
        · rw [hx]; exact hkc
        · exact hkeymem x hx
    · simp only [hkc] at h
      simp at h

/-- A successful key/value match consumes at least one character. -/
theorem tryKVAt_rest_length (s k v rest : List Char)
    (h : tryKVAt s = some (k, v, rest)) : rest.length < s.length := by
  obtain ⟨g, w1, w2, q1, q2, hs, _⟩ := tryKVAt_eq_some s k v rest h
  rw [hs]
  simp [List.length_append]
  omega

/-- The fuel of the scan worker is irrelevant once it covers the text
length. -/
theorem scanKVAux_fuel (f1 : Nat) :
    ∀ (f2 : Nat) (s : List Char), s.length ≤ f1 → s.length ≤ f2 →
    scanKVAux f1 s = scanKVAux f2 s := by
  induction f1 with
  | zero =>
    intro f2 s h1 _
    have : s = [] := List.length_eq_zero.mp (Nat.le_zero.mp h1)
    subst this
    cases f2 <;> rfl
  | succ f1 ih =>
    intro f2 s h1 h2
    rcases s with _ | ⟨c, tail⟩
    · cases f2 <;> rfl
    · rcases f2 with _ | f2
      · simp at h2
      · simp only [scanKVAux]
        rcases htry : tryKVAt (c :: tail) with _ | ⟨k, v, rest⟩
        · simp only [List.length_cons] at h1 h2
          exact ih f2 tail (Nat.lt_succ_iff.mp (Nat.lt_of_lt_of_le (Nat.lt_succ_self _) h1)) (Nat.lt_succ_iff.mp (Nat.lt_of_lt_of_le (Nat.lt_succ_self _) h2))
        · have hlen := tryKVAt_rest_length _ _ _ _ htry
          simp only [List.length_cons] at h1 h2 hlen
          dsimp only
          rw [ih f2 rest (by omega) (by omega)]

/-- A failed match attempt advances the scan by one position. -/
theorem scanKV_cons_of_none (c : Char) (tail : List Char)
    (h : tryKVAt (c :: tail) = none) : scanKV (c :: tail) = scanKV tail := by
  unfold scanKV
  simp only [List.length_cons, scanKVAux, h]

/-- A successful match is recorded and the scan resumes after it. -/
theorem scanKV_cons_of_some (c : Char) (tail k v rest : List Char)
    (h : tryKVAt (c :: tail) = some (k, v, rest)) :
    scanKV (c :: tail) = (k, v) :: scanKV rest := by
  unfold scanKV
  simp only [List.length_cons, scanKVAux, h]
  have hlen := tryKVAt_rest_length _ _ _ _ h
  simp only [List.length_cons] at hlen
  rw [scanKVAux_fuel tail.length rest.length rest (by omega) (le_refl _)]

/-- Reading a record: the head entry wins when its key matches. -/
theorem lookupRecord_cons {α β : Type} [DecidableEq α] (p : α × β) (m : List (α × β)) (k : α) :
    lookupRecord (p :: m) k = if p.1 = k then some p.2 else lookupRecord m k := by
  unfold lookupRecord
  by_cases h : p.1 = k
  · rw [List.find?_cons_of_pos _ (by simp [h])]
    simp [h]
  · rw [List.find?_cons_of_neg _ (by simp [h])]
    simp [h]

/-- Overwriting an existing key: the updated value is found. -/
theorem lookupRecord_map_set_eq {α β : Type} [DecidableEq α]
    (m : List (α × β)) (k : α) (v : β)
    (hany : m.any (fun p => p.1 = k) = true) :
    lookupRecord (m.map (fun p => if p.1 = k then (k, v) else p)) k = some v := by
  induction m with
  | nil => simp at hany
  | cons x t ih =>
    rw [List.map_cons]
    by_cases hx : x.1 = k
    · simp only [hx, if_true, ite_true]
      rw [lookupRecord_cons]
      simp
    · simp only [hx, if_false, ite_false]
      rw [lookupRecord_cons, if_neg hx]
      apply ih
      simp only [List.any_cons, Bool.or_eq_true] at hany
      rcases hany with h | h
      · exact absurd (of_decide_eq_true h) hx
      · exact h

/-- Overwriting an existing key leaves other keys unchanged. -/
theorem lookupRecord_map_set_ne {α β : Type} [DecidableEq α]
    (m : List (α × β)) (k : α) (v : β) (k2 : α) (hne : k2 ≠ k) :
    lookupRecord (m.map (fun p => if p.1 = k then (k, v) else p)) k2 =
      lookupRecord m k2 := by
  induction m with
  | nil => rfl
  | cons x t ih =>
    rw [List.map_cons]
    by_cases hx : x.1 = k
    · simp only [hx, if_true, ite_true]
      rw [lookupRecord_cons, lookupRecord_cons]
      rw [if_neg (fun h => hne h.symm), if_neg (by rw [hx]; exact fun h => hne h.symm)]
      exact ih
    · simp only [hx, if_false, ite_false]
      rw [lookupRecord_cons, lookupRecord_cons]
      by_cases hx2 : x.1 = k2
      · rw [if_pos hx2, if_pos hx2]
      · rw [if_neg hx2, if_neg hx2]
        exact ih

/-- Appending a fresh key makes it readable. -/
theorem lookupRecord_append_last {α β : Type} [DecidableEq α]
    (m : List (α × β)) (k : α) (v : β)
    (hnone : lookupRecord m k = none) :
    lookupRecord (m ++ [(k, v)]) k = some v := by
  induction m with
  | nil => simp [lookupRecord_cons]
  | cons x t ih =>
    rw [List.cons_append, lookupRecord_cons]
    rw [lookupRecord_cons] at hnone
    by_cases hx : x.1 = k
    · rw [if_pos hx] at hnone
      exact Option.noConfusion hnone
    · rw [if_neg hx] at hnone ⊢
      exact ih hnone

/-- Appending a fresh key leaves other keys unchanged. -/
theorem lookupRecord_append_ne {α β : Type} [DecidableEq α]
    (m : List (α × β)) (k : α) (v : β) (k2 : α) (hne : k2 ≠ k) :
    lookupRecord (m ++ [(k, v)]) k2 = lookupRecord m k2 := by
  induction m with
  | nil =>
    simp only [List.nil_append, lookupRecord_cons]
    rw [if_neg (fun h => hne h.symm)]
  | cons x t ih =>
    rw [List.cons_append, lookupRecord_cons, lookupRecord_cons]
    by_cases hx : x.1 = k2
    · rw [if_pos hx, if_pos hx]
    · rw [if_neg hx, if_neg hx]
      exact ih

/-- The existence test `m.any (·.1 = k)` agrees with the record read. -/
theorem any_eq_true_of_lookup {α β : Type} [DecidableEq α]
    (m : List (α × β)) (k : α) :
    m.any (fun p => p.1 = k) = true ↔ lookupRecord m k ≠ none := by
  induction m with
  | nil => simp [lookupRecord]
  | cons x t ih =>
    rw [List.any_cons, lookupRecord_cons]
    by_cases hx : x.1 = k
    · simp [hx]
    · rw [if_neg hx, decide_eq_false hx]
      simp only [Bool.false_or]
      exact ih

/-- JavaScript assignment semantics of `recordSet`: reading key `k2`
after `m[k] = v` yields `v` when `k2 = k` and the old binding
otherwise. -/
theorem lookupRecord_recordSet {α β : Type} [DecidableEq α]
    (m : List (α × β)) (k : α) (v : β) (k2 : α) :
    lookupRecord (recordSet m k v) k2 =
      if k2 = k then some v else lookupRecord m k2 := by
  unfold recordSet
  by_cases hany : m.any (fun p => p.1 = k) = true
  · rw [if_pos hany]
    by_cases hk : k2 = k
    · subst hk
      rw [if_pos rfl]
      exact lookupRecord_map_set_eq m k2 v hany
    · rw [if_neg hk]
      exact lookupRecord_map_set_ne m k v k2 hk
  · rw [if_neg hany]
    by_cases hk : k2 = k
    · subst hk
      rw [if_pos rfl]
      apply lookupRecord_append_last
      rcases hl : lookupRecord m k2 with _ | b
      · rfl
      · exact absurd ((any_eq_true_of_lookup m k2).mpr (by rw [hl]; exact fun h => Option.noConfusion h)) hany
    · rw [if_neg hk]
      exact lookupRecord_append_ne m k v k2 hk

/-- A find in the left part of an append wins. -/
theorem find?_append_some {α : Type} (l1 l2 : List α) (p : α → Bool) (x : α)
    (h : l1.find? p = some x) : (l1 ++ l2).find? p = some x := by
  induction l1 with
  | nil => simp [List.find?] at h
  | cons a t ih =>
    rw [List.cons_append]
    rcases hpa : p a with _ | _
    · rw [List.find?_cons_of_neg _ (by simp [hpa])]
      rw [List.find?_cons_of_neg _ (by simp [hpa])] at h
      exact ih h
    · rw [List.find?_cons_of_pos _ hpa]
      rw [List.find?_cons_of_pos _ hpa] at h
      exact h

/-- A find falls through to the right part when the left part has no match. -/
theorem find?_append_none {α : Type} (l1 l2 : List α) (p : α → Bool)
    (h : l1.find? p = none) : (l1 ++ l2).find? p = l2.find? p := by
  induction l1 with
  | nil => rfl
  | cons a t ih =>
    rw [List.cons_append]
    rcases hpa : p a with _ | _
    · rw [List.find?_cons_of_neg _ (by simp [hpa])]
      rw [List.find?_cons_of_neg _ (by simp [hpa])] at h
      exact ih h
    · rw [List.find?_cons_of_pos _ hpa] at h
      exact Option.noConfusion h

/-- Folding entries into a record with assignment semantics: a read
returns the value of the last entry with that key, else falls through
to the initial record. -/
theorem lookupRecord_foldl_recordSet {α β : Type} [DecidableEq α]
    (es : List (α × β)) :
    ∀ (m : List (α × β)) (k : α),
    lookupRecord (es.foldl (fun acc e => recordSet acc e.1 e.2) m) k =
      match es.reverse.find? (fun e => decide (e.1 = k)) with
      | some e => some e.2
      | none => lookupRecord m k := by
  induction es with
  | nil => intro m k; rfl
  | cons e t ih =>
    intro m k
    rcases hf : t.reverse.find? (fun e => decide (e.1 = k)) with _ | x
    · rw [List.foldl_cons, ih, hf, List.reverse_cons, find?_append_none _ _ _ hf]
      dsimp only
      by_cases he : e.1 = k
      · rw [List.find?_cons_of_pos _ (by simp [he])]
        dsimp only
        rw [lookupRecord_recordSet, if_pos he.symm]
      · rw [List.find?_cons_of_neg _ (by simp [he])]
        rw [List.find?_nil]
        dsimp only
        rw [lookupRecord_recordSet, if_neg (fun h => he h.symm)]
    · rw [List.foldl_cons, ih, hf, List.reverse_cons, find?_append_some _ _ _ _ hf]

/-- C4: for every source text and key, the translation table built by
the parser maps the key to the value of the last key/value match
recorded for it (entries are folded in the order encountered,
last-write-wins), and the parse never errors — in particular a key
appearing more than once inside the matched object literal gets its
last occurrence's value. -/
theorem parse_last_write_wins (content : List Char) (k : List Char) :
    lookupRecord (parseTranslationFile content) k =
      match (parsedEntries content).reverse.find? (fun e => decide (e.1 = k)) with
      | some e => some e.2
      | none => none := by
  unfold parseTranslationFile parsedEntries
  rcases hx : extractObject (stripLineComments (stripBlockComments content)) with _ | obj
  · simp only [hx]
    rfl
  · simp only [hx]
    rw [lookupRecord_foldl_recordSet]
    rcases hf : List.find? (fun e => decide (e.1 = k)) (scanKV obj).reverse with _ | x
    · rw [hf]; rfl
    · rw [hf]

/-- Every entry of an updated record comes from the record or is the
assignment itself. -/
theorem mem_recordSet {α β : Type} [DecidableEq α]
    (m : List (α × β)) (k : α) (v : β) (x : α × β)
    (h : x ∈ recordSet m k v) : x ∈ m ∨ x = (k, v) := by
  unfold recordSet at h
  by_cases hany : m.any (fun p => p.1 = k) = true
  · rw [if_pos hany] at h
    obtain ⟨p, hp, hfx⟩ := List.mem_map.mp h
    by_cases hp1 : p.1 = k
    · right
      rw [← hfx, if_pos hp1]
    · left
      rw [← hfx, if_neg hp1]
      exact hp
  · rw [if_neg hany] at h
    rcases List.mem_append.mp h with h | h
    · left; exact h
    · right; exact List.mem_singleton.mp h

/-- Every entry of a folded record comes from the seed or the folded
list. -/
theorem mem_foldl_recordSet {α β : Type} [DecidableEq α]
    (es : List (α × β)) :
    ∀ (m : List (α × β)) (x : α × β),
    x ∈ es.foldl (fun acc e => recordSet acc e.1 e.2) m → x ∈ m ∨ x ∈ es := by
  induction es with
  | nil => intro m x h; exact Or.inl h
  | cons e t ih =>
    intro m x h
    rw [List.foldl_cons] at h
    rcases ih _ x h with h2 | h2
    · rcases mem_recordSet _ _ _ _ h2 with h3 | h3
      · exact Or.inl h3
      · exact Or.inr (List.mem_cons.mpr (Or.inl h3))
    · exact Or.inr (List.mem_cons_of_mem e h2)

/-- Every entry the key/value scan produces arises from an occurrence
of the key-colon-quoted-string shape in the scanned text. -/
theorem mem_scanKV_shape :
    ∀ (n : Nat) (s : List Char), s.length ≤ n → ∀ e ∈ scanKV s,
    ∃ pre g w1 w2 q1 q2 rest,
      s = pre ++ g ++ e.1 ++ g ++ w1 ++ ':' :: w2 ++ q1 :: e.2 ++ q2 :: rest ∧
      (g = [] ∨ g = ['"'] ∨ g = [squote]) ∧
      e.1 ≠ [] ∧ (∀ c ∈ e.1, isKeyChar c = true) ∧
      (∀ c ∈ w1, isWsChar c = true) ∧ (∀ c ∈ w2, isWsChar c = true) ∧
      isQuoteChar q1 = true ∧ isQuoteChar q2 = true ∧
      (∀ c ∈ e.2, isQuoteChar c = false) := by
  intro n
  induction n with
  | zero =>
    intro s hlen e he
    have : s = [] := List.length_eq_zero.mp (Nat.le_zero.mp hlen)
    subst this
    simp [scanKV, scanKVAux] at he
  | succ n ih =>
    intro s hlen e he
    rcases s with _ | ⟨c, tail⟩
    · simp [scanKV, scanKVAux] at he
    · rcases htry : tryKVAt (c :: tail) with _ | ⟨⟨k, v, rest⟩⟩
      · rw [scanKV_cons_of_none _ _ htry] at he
        simp only [List.length_cons] at hlen
        obtain ⟨pre, g, w1, w2, q1, q2, rest, hs, hg, hk1, hk2, hw1, hw2, hq1, hq2, hv⟩ :=
          ih tail (by omega) e he
        exact ⟨c :: pre, g, w1, w2, q1, q2, rest, by simp [hs], hg, hk1, hk2, hw1, hw2, hq1, hq2, hv⟩
      · rw [scanKV_cons_of_some _ _ _ _ _ htry] at he
        rcases List.mem_cons.mp he with he2 | he2
        · obtain ⟨g, w1, w2, q1, q2, hs, hg, hk1, hk2, hw1, hw2, hq1, hq2, hv⟩ :=
            tryKVAt_eq_some _ _ _ _ htry
          subst he2
          exact ⟨[], g, w1, w2, q1, q2, rest, by simp only [List.nil_append]; exact hs, hg, hk1, hk2, hw1, hw2, hq1, hq2, hv⟩
        · have hrl := tryKVAt_rest_length _ _ _ _ htry
          simp only [List.length_cons] at hlen hrl
          obtain ⟨pre, g, w1, w2, q1, q2, rest2, hs2, hg, hk1, hk2, hw1, hw2, hq1, hq2, hv⟩ :=
            ih rest (by omega) e he2
          obtain ⟨g0, w10, w20, q10, q20, hs0, _⟩ := tryKVAt_eq_some _ _ _ _ htry
          refine ⟨g0 ++ k ++ g0 ++ w10 ++ ':' :: w20 ++ q10 :: v ++ [q20] ++ pre,
            g, w1, w2, q1, q2, rest2, ?_, hg, hk1, hk2, hw1, hw2, hq1, hq2, hv⟩
          rw [hs0, hs2]
          simp [List.append_assoc]

/-- C3 amended: every entry of the parsed translation table arises from
an occurrence of the key-colon-quoted-string shape somewhere in the
matched object literal (not necessarily at its top level): the object
text splits around the entry's quoted key, colon, and quoted value.
Numeric, boolean and array values produce no such occurrence, but a
string pair nested inside an object value does. -/
theorem parse_entry_shape (content : List Char) (e : List Char × List Char)
    (h : e ∈ parseTranslationFile content) :
    ∃ obj, extractObject (stripLineComments (stripBlockComments content)) = some obj ∧
    ∃ pre g w1 w2 q1 q2 rest,
      obj = pre ++ g ++ e.1 ++ g ++ w1 ++ ':' :: w2 ++ q1 :: e.2 ++ q2 :: rest ∧
      (g = [] ∨ g = ['"'] ∨ g = [squote]) ∧
      e.1 ≠ [] ∧ (∀ c ∈ e.1, isKeyChar c = true) ∧
      (∀ c ∈ w1, isWsChar c = true) ∧ (∀ c ∈ w2, isWsChar c = true) ∧
      isQuoteChar q1 = true ∧ isQuoteChar q2 = true ∧
      (∀ c ∈ e.2, isQuoteChar c = false) := by
  unfold parseTranslationFile at h
  rcases hx : extractObject (stripLineComments (stripBlockComments content)) with _ | obj
  · simp only [hx] at h
    exact absurd h (List.not_mem_nil e)
  · simp only [hx] at h
    rcases mem_foldl_recordSet _ _ _ h with h2 | h2
    · exact absurd h2 (List.not_mem_nil e)
    · exact ⟨obj, rfl, mem_scanKV_shape obj.length obj (le_refl _) e h2⟩

/-- C3 counterexample: a source whose only top-level entry has a nested
object value produces the entry `b -> inner` taken from inside that
nested (non-string) value, refuting the claim that only top-level
key-colon-quoted-string entries become translation entries and that no
entry derives from a non-string value. -/
theorem parse_nested_value_leaks :
    parseTranslationFile "export default \x7b a: \x7b b: \"inner\" \x7d \x7d;".data =
      [("b".data, "inner".data)] := by
  decide

/-- C3 witness: the entry `welcome -> Welcome` of a concrete file
indeed arises from a key-colon-quoted-string occurrence. -/
theorem parse_entry_shape_witness :
    ("welcome".data, "Welcome".data) ∈
      parseTranslationFile "export default \x7b welcome: \"Welcome\" \x7d;".data ∧
    (∃ obj, extractObject (stripLineComments (stripBlockComments
        "export default \x7b welcome: \"Welcome\" \x7d;".data)) = some obj ∧
     ∃ pre g w1 w2 q1 q2 rest,
      obj = pre ++ g ++ "welcome".data ++ g ++ w1 ++ ':' :: w2 ++ q1 :: "Welcome".data ++ q2 :: rest ∧
      (g = [] ∨ g = ['"'] ∨ g = [squote]) ∧
      "welcome".data ≠ [] ∧ (∀ c ∈ "welcome".data, isKeyChar c = true) ∧
      (∀ c ∈ w1, isWsChar c = true) ∧ (∀ c ∈ w2, isWsChar c = true) ∧
      isQuoteChar q1 = true ∧ isQuoteChar q2 = true ∧
      (∀ c ∈ "Welcome".data, isQuoteChar c = false)) :=
  ⟨by decide, parse_entry_shape _ ("welcome".data, "Welcome".data) (by decide)⟩

/-- Unfolding of the comment-start test at a cons. -/
theorem hcs_cons (a : Char) (l : List Char) :
    hasCommentStart (a :: l) =
      ((a = '/' && (l.head?.elim false (fun b => b = '/' || b = '*'))) || hasCommentStart l) := by
  rcases l with _ | ⟨b, r⟩
  · simp [hasCommentStart]
  · simp [hasCommentStart]

/-- A head other than `/` cannot start a comment. -/
theorem hcs_cons_ne (a : Char) (l : List Char) (ha : ¬ a = '/') :
    hasCommentStart (a :: l) = hasCommentStart l := by
  rw [hcs_cons]
  simp [ha]

/-- Joining comment-free texts stays comment-free when the boundary is
safe (the right part starts with a character other than `/` and `*`). -/
theorem hcs_append_safe (a b : List Char) (h : Char)
    (ha : hasCommentStart a = false) (hb : hasCommentStart b = false)
    (hh : b.head? = some h) (hh1 : ¬ h = '/') (hh2 : ¬ h = '*') :
    hasCommentStart (a ++ b) = false := by
  induction a with
  | nil => simpa using hb
  | cons x t ih =>
    rw [List.cons_append, hcs_cons]
    rcases t with _ | ⟨y, r⟩
    · -- a = [x]; (x :: b) head of b known
      simp only [List.nil_append]
      rw [hh]
      simp only [Option.elim]
      have : (decide (h = '/') || decide (h = '*')) = false := by
        simp [hh1, hh2]
      rw [this]
      simp only [Bool.and_false, Bool.false_or]
      exact hb
    · rw [hcs_cons] at ha
      simp only [Bool.or_eq_false_iff] at ha
      obtain ⟨ha1, ha2⟩ := ha
      rw [ih ha2]
      simp only [Bool.or_false]
      simp only [List.cons_append, List.head?_cons]
      simp only [List.head?_cons] at ha1
      exact ha1

/-- Prepending slash-free characters preserves comment-freeness. -/
theorem hcs_safe_run (pre : List Char) (l : List Char)
    (hp : ∀ c ∈ pre, ¬ c = '/') (hl : hasCommentStart l = false) :
    hasCommentStart (pre ++ l) = false := by
  induction pre with
  | nil => simpa using hl
  | cons x t ih =>
    rw [List.cons_append, hcs_cons_ne x _ (hp x (List.mem_cons_self x t))]
    exact ih (fun c hc => hp c (List.mem_cons_of_mem x hc))

/-- Block-comment stripping is the identity on comment-free text. -/
theorem stripBlockAux_id (fuel : Nat) :
    ∀ s : List Char, hasCommentStart s = false → stripBlockAux fuel s = s := by
  induction fuel with
  | zero => intro s _; rfl
  | succ f ih =>
    intro s hs
    rcases s with _ | ⟨c, t⟩
    · rfl
    · rcases t with _ | ⟨d, r⟩
      · show c :: stripBlockAux f [] = [c]
        rw [ih [] rfl]
      · show (if c = '/' ∧ d = '*' then _ else c :: stripBlockAux f (d :: r)) = c :: d :: r
        rw [hcs_cons] at hs
        simp only [Bool.or_eq_false_iff, List.head?_cons, Option.elim] at hs
        obtain ⟨h1, h2⟩ := hs
        rw [if_neg]
        · rw [ih (d :: r) h2]
        · rintro ⟨hc, hd⟩
          rw [hc, hd] at h1
          simp at h1

/-- Line-comment stripping is the identity on comment-free text. -/
theorem stripLineAux_id (fuel : Nat) :
    ∀ s : List Char, hasCommentStart s = false → stripLineAux fuel s = s := by
  induction fuel with
  | zero => intro s _; rfl
  | succ f ih =>
    intro s hs
    rcases s with _ | ⟨c, t⟩
    · rfl
    · rcases t with _ | ⟨d, r⟩
      · show c :: stripLineAux f [] = [c]
        rw [ih [] rfl]
      · show (if c = '/' ∧ d = '/' then _ else c :: stripLineAux f (d :: r)) = c :: d :: r
        rw [hcs_cons] at hs
        simp only [Bool.or_eq_false_iff, List.head?_cons, Option.elim] at hs
        obtain ⟨h1, h2⟩ := hs
        rw [if_neg]
        · rw [ih (d :: r) h2]
        · rintro ⟨hc, hd⟩
          rw [hc, hd] at h1
          simp at h1

/-- Identity of the block-comment rewrite on comment-free text. -/
theorem stripBlockComments_id (s : List Char) (hs : hasCommentStart s = false) :
    stripBlockComments s = s :=
  stripBlockAux_id s.length s hs

/-- Identity of the line-comment rewrite on comment-free text. -/
theorem stripLineComments_id (s : List Char) (hs : hasCommentStart s = false) :
    stripLineComments s = s :=
  stripLineAux_id s.length s hs

/-- The export-default header matches at the start of a serialized
table, whatever follows the brace. -/
theorem matchEDAt_header (tail : List Char) :
    matchEDAt ("export default ".data ++ '{' :: tail) = some ('{' :: tail) := rfl

/-- Position 0 is the leftmost export-default match of a serialized
table. -/
theorem findED_header (tail : List Char) :
    findED ("export default ".data ++ '{' :: tail) = some ('{' :: tail) := rfl

/-- The closing-brace search succeeds on a text ending in brace and
semicolon. -/
theorem closeTailRev_semi (x : List Char) :
    closeTailRev (';' :: '}' :: x) = some ('}' :: x) := rfl

/-- The export-default regex captures exactly the serialized object
literal, braces included. -/
theorem extractObject_serialized (mid : List Char) :
    extractObject ("export default ".data ++ '{' :: mid ++ ['}', ';']) =
      some ('{' :: (mid ++ ['}'])) := by
  unfold extractObject
  have hrev : ("export default ".data ++ '{' :: mid ++ ['}', ';']).reverse =
      ';' :: '}' :: (mid.reverse ++ ('{' :: "export default ".data.reverse)) := by
    simp
  rw [hrev, closeTailRev_semi]
  dsimp only
  have hrev2 : ('}' :: (mid.reverse ++ ('{' :: "export default ".data.reverse))).reverse =
      "export default ".data ++ '{' :: (mid ++ ['}']) := by
    simp
  rw [hrev2, findED_header]
  dsimp only
  rw [if_pos (by simp : 2 ≤ ('{' :: (mid ++ ['}'])).length)]
/-- No key/value match at the lone closing brace. -/
theorem tryKVAt_rbrace : tryKVAt ['}'] = none := rfl
/-- No key/value match at the opening brace of an empty object. -/
theorem tryKVAt_brace_end : tryKVAt ['{', '}'] = none := rfl
/-- No key/value match at a trailing comma before the closing brace. -/
theorem tryKVAt_comma_brace : tryKVAt [',', '}'] = none := rfl
/-- No key/value match at the opening brace when a quoted key follows. -/
theorem tryKVAt_open_brace (x : List Char) : tryKVAt ('{' :: '"' :: x) = none := rfl
/-- No key/value match at the comma between serialized entries. -/
theorem tryKVAt_comma_quote (x : List Char) : tryKVAt (',' :: '"' :: x) = none := rfl

/-- The key/value regex matches a serialized entry exactly, returning
its key and value and stopping after the value's closing quote. -/
theorem tryKVAt_entry (k v rest : List Char)
    (hk1 : k ≠ []) (hk2 : ∀ c ∈ k, isKeyChar c = true)
    (hv : ∀ c ∈ v, isQuoteChar c = false) :
    tryKVAt ('"' :: (k ++ '"' :: ':' :: ' ' :: '"' :: (v ++ '"' :: ',' :: rest))) =
      some (k, v, ',' :: rest) := by
  unfold tryKVAt
  dsimp only
  rw [takeWhile_append_stop k '"' _ hk2 rfl]
  rw [dropWhile_append_stop k '"' _ hk2 rfl]
  simp only [show isQuoteChar '"' = true from rfl, if_true, ite_true]
  rw [if_pos ⟨hk1, trivial⟩]
  unfold afterKey
  rw [show List.dropWhile isWsChar (':' :: ' ' :: '"' :: (v ++ '"' :: ',' :: rest)) =
    ':' :: ' ' :: '"' :: (v ++ '"' :: ',' :: rest) from rfl]
  dsimp only
  rw [show List.dropWhile isWsChar (' ' :: '"' :: (v ++ '"' :: ',' :: rest)) =
    '"' :: (v ++ '"' :: ',' :: rest) from by
      rw [List.dropWhile_cons_of_pos (by rfl)]
      exact List.dropWhile_cons_of_neg (by decide)]
  dsimp only
  simp only [show isQuoteChar '"' = true from rfl, if_true, ite_true]
  have hvp : ∀ c ∈ v, (fun c => !(isQuoteChar c)) c = true := by
    intro c hc
    simp [hv c hc]
  rw [takeWhile_append_stop v '"' _ hvp (by rfl)]
  rw [dropWhile_append_stop v '"' _ hvp (by rfl)]
  rfl

/-- The scan of the empty text. -/
theorem scanKV_nil : scanKV [] = [] := rfl
/-- The scan of the lone closing brace. -/
theorem scanKV_rbrace : scanKV ['}'] = [] := rfl

/-- The key/value scan of the serialized entries recovers exactly the
table's entry list, in order. -/
theorem scanKV_entries (T : List (List Char × List Char))
    (h : ∀ e ∈ T, e.1 ≠ [] ∧ (∀ c ∈ e.1, isKeyChar c = true) ∧
      (∀ c ∈ e.2, isQuoteChar c = false)) :
    scanKV ((T.map serializeEntry).flatten ++ ['}']) = T := by
  induction T with
  | nil => simp [scanKV_rbrace]
  | cons e t ih =>
    obtain ⟨hk1, hk2, hv⟩ := h e (List.mem_cons_self e t)
    have hrest : ∀ e2 ∈ t, e2.1 ≠ [] ∧ (∀ c ∈ e2.1, isKeyChar c = true) ∧
        (∀ c ∈ e2.2, isQuoteChar c = false) :=
      fun e2 he2 => h e2 (List.mem_cons_of_mem e he2)
    have hshape : ((e :: t).map serializeEntry).flatten ++ ['}'] =
        '"' :: (e.1 ++ '"' :: ':' :: ' ' :: '"' ::
          (e.2 ++ '"' :: ',' :: ((t.map serializeEntry).flatten ++ ['}']))) := by
      simp [serializeEntry]
    rw [hshape]
    rw [scanKV_cons_of_some _ _ _ _ _ (tryKVAt_entry e.1 e.2 _ hk1 hk2 hv)]
    have hskip : scanKV (',' :: ((t.map serializeEntry).flatten ++ ['}'])) =
        scanKV ((t.map serializeEntry).flatten ++ ['}']) := by
      rcases t with _ | ⟨e2, t2⟩
      · simp only [List.map_nil, List.flatten_nil, List.nil_append]
        rw [scanKV_cons_of_none _ _ tryKVAt_comma_brace]
      · have : ((e2 :: t2).map serializeEntry).flatten ++ ['}'] =
            '"' :: (e2.1 ++ '"' :: ':' :: ' ' :: '"' ::
              (e2.2 ++ '"' :: ',' :: ((t2.map serializeEntry).flatten ++ ['}']))) := by
          simp [serializeEntry]
        rw [this, scanKV_cons_of_none _ _ (tryKVAt_comma_quote _)]
    rw [hskip, ih hrest]

/-- Serialized entries followed by a safe tail are comment-free when
every key and value is. -/
theorem hcs_entries (T : List (List Char × List Char))
    (h : ∀ e ∈ T, hasCommentStart e.1 = false ∧ hasCommentStart e.2 = false) :
    ∀ tail hh, tail.head? = some hh → ¬ hh = '/' → ¬ hh = '*' →
    hasCommentStart tail = false →
    hasCommentStart ((T.map serializeEntry).flatten ++ tail) = false := by
  induction T with
  | nil => intro tail hh _ _ _ ht; simpa using ht
  | cons e t ih =>
    intro tail hh hhd hh1 hh2 ht
    obtain ⟨hke, hve⟩ := h e (List.mem_cons_self e t)
    have hrest : ∀ e2 ∈ t, hasCommentStart e2.1 = false ∧ hasCommentStart e2.2 = false :=
      fun e2 he2 => h e2 (List.mem_cons_of_mem e he2)
    have hX : hasCommentStart ((t.map serializeEntry).flatten ++ tail) = false :=
      ih hrest tail hh hhd hh1 hh2 ht
    have hshape : ((e :: t).map serializeEntry).flatten ++ tail =
        '"' :: (e.1 ++ '"' :: ':' :: ' ' :: '"' ::
          (e.2 ++ '"' :: ',' :: ((t.map serializeEntry).flatten ++ tail))) := by
      simp [serializeEntry]
    rw [hshape]
    have h1 : hasCommentStart ('"' :: ',' :: ((t.map serializeEntry).flatten ++ tail)) = false := by
      rw [hcs_cons_ne _ _ (by decide), hcs_cons_ne _ _ (by decide)]
      exact hX
    have h2 : hasCommentStart (e.2 ++ '"' :: ',' :: ((t.map serializeEntry).flatten ++ tail)) = false :=
      hcs_append_safe _ _ '"' hve h1 rfl (by decide) (by decide)
    have h3 : hasCommentStart ('"' :: ':' :: ' ' :: '"' ::
        (e.2 ++ '"' :: ',' :: ((t.map serializeEntry).flatten ++ tail))) = false := by
      rw [hcs_cons_ne _ _ (by decide), hcs_cons_ne _ _ (by decide),
        hcs_cons_ne _ _ (by decide), hcs_cons_ne _ _ (by decide)]
      exact h2
    have h4 : hasCommentStart (e.1 ++ '"' :: ':' :: ' ' :: '"' ::
        (e.2 ++ '"' :: ',' :: ((t.map serializeEntry).flatten ++ tail))) = false :=
      hcs_append_safe _ _ '"' hke h3 rfl (by decide) (by decide)
    rw [hcs_cons_ne _ _ (by decide)]
    exact h4

/-- A serialized table is comment-free when every key and value is. -/
theorem hcs_serializeTable (T : List (List Char × List Char))
    (h : ∀ e ∈ T, hasCommentStart e.1 = false ∧ hasCommentStart e.2 = false) :
    hasCommentStart (serializeTable T) = false := by
  unfold serializeTable
  have hshape : "export default ".data ++ '{' :: (T.map serializeEntry).flatten ++ ['}', ';'] =
      ("export default ".data ++ ['{']) ++ ((T.map serializeEntry).flatten ++ ['}', ';']) := by
    simp
  rw [hshape]
  apply hcs_safe_run
  · have : ∀ c ∈ ("export default ".data ++ ['\x7b']), ¬ c = '/' := by decide
    exact this
  · exact hcs_entries T h ['}', ';'] '}' rfl (by decide) (by decide) (by decide)

/-- Folding entries with pairwise-distinct keys into a disjoint record
appends them unchanged. -/
theorem foldl_recordSet_nodup {α β : Type} [DecidableEq α] (T : List (α × β)) :
    ∀ m : List (α × β), (T.map Prod.fst).Nodup →
    (∀ e ∈ T, lookupRecord m e.1 = none) →
    T.foldl (fun acc e => recordSet acc e.1 e.2) m = m ++ T := by
  induction T with
  | nil => intro m _ _; simp
  | cons e t ih =>
    intro m hnd hdisj
    rw [List.foldl_cons]
    have hlook : lookupRecord m e.1 = none := hdisj e (List.mem_cons_self e t)
    have hany : m.any (fun p => p.1 = e.1) = false := by
      rcases hb : m.any (fun p => p.1 = e.1)
      · rfl
      · exact absurd hlook ((any_eq_true_of_lookup m e.1).mp hb)
    have hset : recordSet m e.1 e.2 = m ++ [e] := by
      unfold recordSet
      rw [if_neg (by simp [hany])]
    rw [hset]
    rw [List.map_cons, List.nodup_cons] at hnd
    obtain ⟨hnotin, hnd2⟩ := hnd
    rw [ih (m ++ [e]) hnd2 ?_]
    · simp
    · intro e2 he2
      have hne : e2.1 ≠ e.1 := by
        intro hcontra
        exact hnotin (hcontra ▸ List.mem_map_of_mem Prod.fst he2)
      rw [lookupRecord_append_ne m e.1 e.2 e2.1 hne]
      exact hdisj e2 (List.mem_cons_of_mem e he2)

/-- C1 amended: serializing a `TranslationTable` as a default-exported
object literal with quoted string keys and quoted string values and
re-parsing it yields back exactly the original table (same entries,
same order), provided the table's keys are nonempty and free of quote,
whitespace and colon characters and of `//`/`/*` sequences, and its
values are free of quote characters and of `//`/`/*` sequences - the
restrictions the counterexample forces on the regex pipeline. -/
theorem roundtrip_holds (T : List (List Char × List Char))
    (hnd : (T.map Prod.fst).Nodup)
    (hkey : ∀ e ∈ T, e.1 ≠ [] ∧ (∀ c ∈ e.1, isKeyChar c = true) ∧
      hasCommentStart e.1 = false)
    (hval : ∀ e ∈ T, (∀ c ∈ e.2, isQuoteChar c = false) ∧
      hasCommentStart e.2 = false) :
    parseTranslationFile (serializeTable T) = T := by
  have hcsT : hasCommentStart (serializeTable T) = false :=
    hcs_serializeTable T (fun e he => ⟨(hkey e he).2.2, (hval e he).2⟩)
  unfold parseTranslationFile
  rw [stripBlockComments_id _ hcsT, stripLineComments_id _ hcsT]
  unfold serializeTable
  dsimp only
  rw [extractObject_serialized]
  dsimp only
  have hskip : scanKV ('{' :: ((T.map serializeEntry).flatten ++ ['}'])) =
      scanKV ((T.map serializeEntry).flatten ++ ['}']) := by
    rcases T with _ | ⟨e, t⟩
    · simp only [List.map_nil, List.flatten_nil, List.nil_append]
      rw [scanKV_cons_of_none _ _ tryKVAt_brace_end]
    · have : ((e :: t).map serializeEntry).flatten ++ ['}'] =
          '"' :: (e.1 ++ '"' :: ':' :: ' ' :: '"' ::
            (e.2 ++ '"' :: ',' :: ((t.map serializeEntry).flatten ++ ['}']))) := by
        simp [serializeEntry]
      rw [this, scanKV_cons_of_none _ _ (tryKVAt_open_brace _)]
  rw [hskip]
  rw [scanKV_entries T (fun e he => ⟨(hkey e he).1, (hkey e he).2.1, (hval e he).1⟩)]
  rw [foldl_recordSet_nodup T [] hnd (fun _ _ => rfl)]
  simp

/-- C1 counterexample: the table mapping `k` to `it"s` does not
round-trip - the serialized value's embedded quote ends the value match
early, so the re-parsed table maps `k` to `it`.  The claim quantifies
over every `TranslationTable`, so this refutes it as stated. -/
theorem roundtrip_fails_on_quote :
    parseTranslationFile (serializeTable [(['k'], ['i', 't', '"', 's'])]) =
      [(['k'], ['i', 't'])] ∧
    parseTranslationFile (serializeTable [(['k'], ['i', 't', '"', 's'])]) ≠
      [(['k'], ['i', 't', '"', 's'])] :=
  ⟨by decide, by decide⟩

/-- C1 witness: a concrete two-entry table satisfying the amended
conditions round-trips exactly. -/
theorem roundtrip_holds_witness :
    (([("welcome".data, "Welcome".data), ("hello".data, "Hello world".data)].map
        Prod.fst).Nodup) ∧
    parseTranslationFile (serializeTable
        [("welcome".data, "Welcome".data), ("hello".data, "Hello world".data)]) =
      [("welcome".data, "Welcome".data), ("hello".data, "Hello world".data)] :=
  ⟨by decide,
   roundtrip_holds [("welcome".data, "Welcome".data), ("hello".data, "Hello world".data)]
     (by decide) (by decide) (by decide)⟩

end AstroI18n
